import Mathlib

/-!
Verification development for the governance core of the
`servicenow-devtools-mcp` server: the policy engine
(`src/servicenow_mcp/policy.py`), the in-memory workflow state stores
(`src/servicenow_mcp/state.py`), and the pure analytical cores of the
`acl_conflicts` and `error_analysis` investigations
(`src/servicenow_mcp/investigations/`).

Python records (dicts with string keys) are embedded as insertion-ordered
association lists; Python `str` comparison and membership are embedded as
explicit lexicographic / infix operations on the underlying character
lists so that every definition is executable and kernel-reducible.
Monotonic timestamps (`time.monotonic()` floats) are embedded as rationals.
-/

/-! ## String helpers

`isInfixB needle hay` embeds the Python expression `needle in hay`
(contiguous-substring membership); `lowerChars` embeds case folding as
used by `re.IGNORECASE` on ASCII field names; `lexLtB` / `lexLeB` embed
Python string comparison (lexicographic on code points), which backs
`min` / `max` over lists of timestamp strings.
-/

def lowerChars (s : String) : List Char :=
  s.data.map Char.toLower

def isPrefixB : List Char → List Char → Bool
  | [], _ => true
  | _ :: _, [] => false
  | a :: as, b :: bs => a == b && isPrefixB as bs

def isInfixB (needle : List Char) : List Char → Bool
  | [] => isPrefixB needle []
  | b :: bs => isPrefixB needle (b :: bs) || isInfixB needle bs

def lexLtB : List Char → List Char → Bool
  | [], [] => false
  | [], _ :: _ => true
  | _ :: _, [] => false
  | a :: as, b :: bs =>
    if a.toNat < b.toNat then true
    else if b.toNat < a.toNat then false
    else lexLtB as bs

def lexLeB : List Char → List Char → Bool
  | [], _ => true
  | _ :: _, [] => false
  | a :: as, b :: bs =>
    if a.toNat < b.toNat then true
    else if b.toNat < a.toNat then false
    else lexLeB as bs

/-- Python `min(t :: ts)`: scan left to right, keep the current element
unless a strictly smaller one appears. -/
def pyMinStr (t : String) (ts : List String) : String :=
  ts.foldl (fun acc x => if lexLtB x.data acc.data then x else acc) t

/-- Python `max(t :: ts)`: scan left to right, keep the current element
unless a strictly larger one appears. -/
def pyMaxStr (t : String) (ts : List String) : String :=
  ts.foldl (fun acc x => if lexLtB acc.data x.data then x else acc) t

/-! ## Policy engine (`policy.py`) -/

/-- `DENIED_TABLES` from `policy.py`: tables that must never be accessed
via the MCP server (a Python `set` of string literals). -/
def DENIED_TABLES : List String :=
  ["sys_user_has_password", "oauth_credential", "oauth_entity",
   "sys_certificate", "sys_ssh_key", "sys_credentials",
   "discovery_credentials", "sys_user_token"]

/-- `_SENSITIVE_PATTERNS` from `policy.py`: each entry is a
`re.compile(pat, re.IGNORECASE)` of a plain-word pattern, so matching a
field name is a case-insensitive substring test. -/
def _SENSITIVE_PATTERNS : List String :=
  ["password", "token", "secret", "credential", "api_key", "private_key"]

/-- `_DATE_FIELD_PATTERNS` from `policy.py`: matched case-sensitively with
the Python `in` operator. -/
def _DATE_FIELD_PATTERNS : List String :=
  ["sys_created_on", "sys_updated_on", "opened_at", "closed_at",
   "sys_recorded_at"]

/-- The two policy exception classes raised by `policy.py`:
`PolicyError` (deny list) and `QuerySafetyError` (large-table rule).
The human-readable messages are not modelled. -/
inductive PolicyFailure where
  | policyError
  | querySafetyError
deriving DecidableEq

/-- The slice of `config.Settings` consumed by `policy.py`:
`max_row_limit`, the parsed `large_table_names` list, and
`servicenow_env` (from which the `is_production` property is derived). -/
structure Settings where
  servicenow_env : String
  max_row_limit : Int
  large_table_names : List String
deriving DecidableEq

/-- `Settings.is_production` from `config.py`:
`servicenow_env == "prod"`. -/
def Settings.is_production (s : Settings) : Bool :=
  s.servicenow_env == "prod"

/-- `check_table_access` from `policy.py`: raises `PolicyError` if the
table is on the deny list, returns `None` otherwise. -/
def check_table_access (table : String) : Except PolicyFailure Unit :=
  if DENIED_TABLES.contains table then
    Except.error PolicyFailure.policyError
  else
    Except.ok ()

/-- `_is_sensitive_field` from `policy.py`:
`any(pattern.search(field_name) for pattern in _SENSITIVE_PATTERNS)`,
each pattern a case-insensitive plain-word regex. -/
def _is_sensitive_field (field_name : String) : Bool :=
  _SENSITIVE_PATTERNS.any (fun p => isInfixB p.data (lowerChars field_name))

/-- Python values stored in a record (enough constructors to show that
masking replaces a value of any type). -/
inductive PyValue where
  | str : String → PyValue
  | int : Int → PyValue
  | boolean : Bool → PyValue
  | none : PyValue
deriving DecidableEq

/-- `MASK_VALUE` from `policy.py`. -/
def MASK_VALUE : PyValue :=
  PyValue.str "***MASKED***"

/-- `mask_sensitive_fields` from `policy.py`: `masked = dict(record)`
(a fresh copy — the argument is never mutated, which the embedding
renders as a pure function of the input), then every key matching a
sensitive pattern is overwritten with `MASK_VALUE`. -/
def mask_sensitive_fields : List (String × PyValue) → List (String × PyValue)
  | [] => []
  | (k, v) :: rest =>
    (k, if _is_sensitive_field k then MASK_VALUE else v) :: mask_sensitive_fields rest

/-- `_has_date_filter` from `policy.py`:
`any(field in query for field in _DATE_FIELD_PATTERNS)` — a raw
(case-sensitive) substring test. -/
def _has_date_filter (query : String) : Bool :=
  _DATE_FIELD_PATTERNS.any (fun f => isInfixB f.data query.data)

/-- The dict `{"limit": effective_limit}` returned by
`enforce_query_safety`. -/
structure SafetyResult where
  limit : Int
deriving DecidableEq

/-- The `effective_limit` local of `enforce_query_safety`:
`settings.max_row_limit` if the requested limit is missing or exceeds
it, the requested limit otherwise. -/
def effective_limit (limit : Option Int) (settings : Settings) : Int :=
  match limit with
  | Option.none => settings.max_row_limit
  | Option.some l =>
    if settings.max_row_limit < l then settings.max_row_limit else l

/-- `enforce_query_safety` from `policy.py`: deny-list check first, then
cap the limit at `settings.max_row_limit` (a missing limit means "use
the maximum"), then reject large tables whose query lacks a
date-bounded filter. -/
def enforce_query_safety (table : String) (query : String)
    (limit : Option Int) (settings : Settings) :
    Except PolicyFailure SafetyResult :=
  match check_table_access table with
  | Except.error e => Except.error e
  | Except.ok _ =>
    if settings.large_table_names.contains table && !(_has_date_filter query) then
      Except.error PolicyFailure.querySafetyError
    else
      Except.ok ⟨effective_limit limit settings⟩

/-- `can_write` from `policy.py`: always block deny-listed tables; in
production require an explicit override; otherwise allow. -/
def can_write (table : String) (settings : Settings) (override : Bool) : Bool :=
  if DENIED_TABLES.contains table then false
  else if settings.is_production && !override then false
  else true

/-! ## Workflow state stores (`state.py`)

The stores are mutated dictionaries in Python; here a store value is
threaded explicitly and `time.monotonic()` readings become explicit
rational-number arguments.
-/

/-- One value of `PreviewTokenStore._store`:
`{"payload": ..., "created_at": time.monotonic()}`. -/
structure TokenEntry (P : Type) where
  payload : P
  created_at : ℚ
deriving DecidableEq

/-- `PreviewTokenStore` from `state.py`: `_ttl` plus the token→entry
dict, embedded as an association list (only lookup/insert/delete
semantics are observable). -/
structure PreviewTokenStore (P : Type) where
  ttl : ℚ
  store : List (String × TokenEntry P)
deriving DecidableEq

/-- `PreviewTokenStore.create`: store the payload under a freshly drawn
token (the `uuid4` draw becomes the explicit `token` argument; dict
assignment overwrites any previous entry with the same key). -/
def PreviewTokenStore.create {P : Type} (s : PreviewTokenStore P)
    (token : String) (payload : P) (now : ℚ) : PreviewTokenStore P :=
  { s with store := (token, ⟨payload, now⟩) :: s.store.filter (fun kv => kv.1 != token) }

/-- `PreviewTokenStore._is_expired`:
`(time.monotonic() - entry["created_at"]) > self._ttl`. -/
def PreviewTokenStore.isExpired {P : Type} (s : PreviewTokenStore P)
    (entry : TokenEntry P) (now : ℚ) : Bool :=
  decide (s.ttl < now - entry.created_at)

/-- `PreviewTokenStore.get`: peek at a token; an expired entry is
deleted lazily and `None` is returned. -/
def PreviewTokenStore.get {P : Type} (s : PreviewTokenStore P)
    (token : String) (now : ℚ) : Option P × PreviewTokenStore P :=
  match s.store.lookup token with
  | Option.none => (Option.none, s)
  | Option.some entry =>
    if s.isExpired entry now then
      (Option.none, { s with store := s.store.filter (fun kv => kv.1 != token) })
    else
      (Option.some entry.payload, s)

/-- `PreviewTokenStore.consume`: like `get` but a successful access also
deletes the token (single use). -/
def PreviewTokenStore.consume {P : Type} (s : PreviewTokenStore P)
    (token : String) (now : ℚ) : Option P × PreviewTokenStore P :=
  match s.store.lookup token with
  | Option.none => (Option.none, s)
  | Option.some entry =>
    if s.isExpired entry now then
      (Option.none, { s with store := s.store.filter (fun kv => kv.1 != token) })
    else
      (Option.some entry.payload, { s with store := s.store.filter (fun kv => kv.1 != token) })

/-- One `{"table": ..., "sys_ids": [...]}` entry of the seed ledger. -/
structure SeedEntry where
  table : String
  sys_ids : List String
deriving DecidableEq

/-- `SeededRecordTracker` from `state.py`: the tag→entries dict. -/
structure SeededRecordTracker where
  store : List (String × List SeedEntry)
deriving DecidableEq

/-- `SeededRecordTracker.track`: create the tag with an empty list if
unknown, then append one `{table, sys_ids}` entry. -/
def SeededRecordTracker.track (s : SeededRecordTracker)
    (tag : String) (table : String) (sys_ids : List String) : SeededRecordTracker :=
  if (s.store.lookup tag).isSome then
    ⟨s.store.map (fun kv => if kv.1 == tag then (kv.1, kv.2 ++ [⟨table, sys_ids⟩]) else kv)⟩
  else
    ⟨s.store ++ [(tag, [⟨table, sys_ids⟩])]⟩

/-- `SeededRecordTracker.get`: return all tracked entries for a tag
(`list(entries)` copies; the embedding is pure so the copy is the
value itself), or `None` for an unknown tag. -/
def SeededRecordTracker.get (s : SeededRecordTracker) (tag : String) :
    Option (List SeedEntry) :=
  s.store.lookup tag

/-- `SeededRecordTracker.remove`: `self._store.pop(tag, None)` — deletes
the whole ledger entry for the tag. -/
def SeededRecordTracker.remove (s : SeededRecordTracker) (tag : String) :
    SeededRecordTracker :=
  ⟨s.store.filter (fun kv => kv.1 != tag)⟩

/-! ## Investigation cores

The `run` coroutines fetch records through the Remote Data Client and
then post-process them purely; the embedding covers the pure
post-processing, taking the fetched records as input. A fetched record
is a dict of string fields, read with `.get(key, default)`.
-/

/-- A fetched ServiceNow record: a dict of string-valued fields. -/
abbrev SnRecord := List (String × String)

/-- Python `record.get(key, default)`. -/
def recGetD (r : SnRecord) (key dflt : String) : String :=
  (r.lookup key).getD dflt

/-- The keys of a `defaultdict(list)` grouping in iteration order:
first-occurrence order of `key a` over the input list, each key once.
`seen` accumulates the keys already emitted. -/
def orderedKeys {α : Type} (key : α → String) : List α → List String → List String
  | [], _ => []
  | a :: rest, seen =>
    if seen.contains (key a) then orderedKeys key rest seen
    else key a :: orderedKeys key rest (key a :: seen)

/-- The `defaultdict(list)` grouping loop
(`for x in l: groups[key(x)].append(x)`) : keys in first-occurrence
order, each mapped to the sublist of elements with that key, in input
order. -/
def groupByKey {α : Type} (key : α → String) (l : List α) : List (String × List α) :=
  (orderedKeys key l []).map (fun n => (n, l.filter (fun a => key a == n)))

/-- Stable insertion into a sorted list: the new element goes before the
first resident element `y` with `le x y` (so, after every earlier
element that ties with it). -/
def insertSorted {α : Type} (le : α → α → Bool) (x : α) : List α → List α
  | [] => [x]
  | y :: ys => if le x y then x :: y :: ys else y :: insertSorted le x ys

/-- Stable sort (the embedding of Python `sorted`, which is a stable
sort; any two stable sorts for the same total preorder agree). -/
def stableSort {α : Type} (le : α → α → Bool) : List α → List α
  | [] => []
  | x :: xs => insertSorted le x (stableSort le xs)

/-- One member of a finding's `acls` list in `acl_conflicts.run`. -/
structure AclInfo where
  sys_id : String
  operation : String
  condition : String
  active : String
deriving DecidableEq

/-- One `acl_conflict` finding produced by `acl_conflicts.run`
(the constant `category` and the free-text `detail` are omitted). -/
structure AclFinding where
  name : String
  count : Nat
  acls : List AclInfo
deriving DecidableEq

/-- The result dict of `acl_conflicts.run` (minus the echoed
`investigation` / `table` fields). -/
structure AclConflictsResult where
  finding_count : Nat
  findings : List AclFinding
  total_acls_checked : Nat
deriving DecidableEq

/-- The per-member projection inside an `acl_conflict` finding. -/
def aclProject (a : SnRecord) : AclInfo :=
  ⟨recGetD a "sys_id" "", recGetD a "operation" "",
   recGetD a "condition" "", recGetD a "active" ""⟩

/-- The pure core of `acl_conflicts.run` (`acl_conflicts.py`, lines
37-61), applied to the fetched ACL records: group by
`acl.get("name", "")`; every group with `len(group) >= 2` yields one
finding carrying the full member list. -/
def acl_conflicts_run (acls : List SnRecord) : AclConflictsResult :=
  let groups := groupByKey (fun a => recGetD a "name" "") acls
  let findings := groups.filterMap (fun g =>
    if 2 ≤ g.2.length then
      Option.some ⟨g.1, g.2.length, g.2.map aclProject⟩
    else
      Option.none)
  ⟨findings.length, findings, acls.length⟩

/-- One `error_cluster` finding produced by `error_analysis.run`
(the constant `category` field is omitted). -/
structure ErrorFinding where
  source : String
  frequency : Nat
  first_seen : String
  last_seen : String
  sample_messages : List String
  element_id : String
deriving DecidableEq

/-- The result dict of `error_analysis.run` (minus the echoed `params`
field). -/
structure ErrorAnalysisResult where
  finding_count : Nat
  findings : List ErrorFinding
  total_errors : Nat
deriving DecidableEq

/-- The per-cluster finding constructor inside `error_analysis.run`:
frequency, `min`/`max` of the `sys_created_on` strings, the first three
messages, and `"syslog:" + first sys_id`. -/
def errorFindingOf (src : String) (entries : List SnRecord) : ErrorFinding :=
  let timestamps := entries.map (fun e => recGetD e "sys_created_on" "")
  { source := src
    frequency := entries.length
    first_seen :=
      match timestamps with
      | [] => ""
      | t :: ts => pyMinStr t ts
    last_seen :=
      match timestamps with
      | [] => ""
      | t :: ts => pyMaxStr t ts
    sample_messages := (entries.take 3).map (fun e => recGetD e "message" "")
    element_id := "syslog:" ++ recGetD (entries.headD []) "sys_id" "" }

/-- The pure core of `error_analysis.run` (`error_analysis.py`, lines
38-57), applied to the fetched syslog records: cluster by
`log.get("source", "unknown")`, sort clusters by descending size
(`sorted(..., key=lambda x: -len(x[1]))`, a stable sort), and build one
finding per cluster. -/
def error_analysis_run (logs : List SnRecord) : ErrorAnalysisResult :=
  let clusters := groupByKey (fun l => recGetD l "source" "unknown") logs
  let sortedClusters :=
    stableSort (fun a b => decide (b.2.length ≤ a.2.length)) clusters
  let findings := sortedClusters.map (fun g => errorFindingOf g.1 g.2)
  ⟨findings.length, findings, logs.length⟩

/-! ## Helper lemmas -/

theorem isPrefixB_append (l post : List Char) : isPrefixB l (l ++ post) = true := by
  induction l with
  | nil => rfl
  | cons a as ih => simp [isPrefixB, ih]

theorem isInfixB_append (needle pre post : List Char) :
    isInfixB needle (pre ++ (needle ++ post)) = true := by
  induction pre with
  | nil =>
    cases needle with
    | nil => cases post <;> simp [isInfixB, isPrefixB]
    | cons c cs =>
      simp only [List.nil_append, isInfixB, Bool.or_eq_true]
      exact Or.inl (isPrefixB_append (c :: cs) post)
  | cons p ps ih =>
    simp only [List.cons_append, isInfixB, Bool.or_eq_true]
    exact Or.inr ih

/-! ## Claim theorems -/

/-- Claim C3: for every table on the static deny-list,
`check_table_access` raises `PolicyError`; `enforce_query_safety`
raises it for every query, every limit (including a missing one) and
every settings object; and `can_write` returns `false` for every
settings object and both override values. -/
theorem denied_table_always_blocked (t : String)
    (h : DENIED_TABLES.contains t = true) :
    check_table_access t = Except.error PolicyFailure.policyError ∧
    (∀ (q : String) (l : Option Int) (s : Settings),
      enforce_query_safety t q l s = Except.error PolicyFailure.policyError) ∧
    (∀ (s : Settings) (o : Bool), can_write t s o = false) := by
  have hca : check_table_access t = Except.error PolicyFailure.policyError := by
    rw [check_table_access, h]
    rfl
  refine ⟨hca, ?_, ?_⟩
  · intro q l s
    rw [enforce_query_safety.eq_def, hca]
  · intro s o
    rw [can_write, h]
    rfl

/-- Witness for C3 at the concrete deny-listed table
`"oauth_credential"`. -/
theorem denied_table_always_blocked_witness :
    check_table_access "oauth_credential" = Except.error PolicyFailure.policyError ∧
    enforce_query_safety "oauth_credential" "" Option.none ⟨"dev", 100, []⟩ =
      Except.error PolicyFailure.policyError ∧
    can_write "oauth_credential" ⟨"prod", 100, []⟩ true = false := by
  have h := denied_table_always_blocked "oauth_credential" (by decide)
  exact ⟨h.1, h.2.1 "" Option.none ⟨"dev", 100, []⟩, h.2.2 ⟨"prod", 100, []⟩ true⟩

/-- Unfolding of `enforce_query_safety` for a table that passes the
deny-list check. -/
theorem enforce_query_safety_of_not_denied (table query : String)
    (limit : Option Int) (settings : Settings)
    (hd : DENIED_TABLES.contains table = false) :
    enforce_query_safety table query limit settings =
      (if settings.large_table_names.contains table && !(_has_date_filter query) then
        Except.error PolicyFailure.querySafetyError
      else
        Except.ok ⟨effective_limit limit settings⟩) := by
  rw [enforce_query_safety.eq_def, check_table_access, hd]
  rfl

/-- Claim C4: for a non-deny-listed table, whenever
`enforce_query_safety` returns a result, the effective limit is
`max_row_limit` for a missing or an over-large requested limit, the
requested limit itself otherwise, and it never exceeds a given
requested limit. -/
theorem enforce_query_safety_limit (table query : String) (limit : Option Int)
    (settings : Settings) (hd : DENIED_TABLES.contains table = false)
    (r : SafetyResult)
    (hr : enforce_query_safety table query limit settings = Except.ok r) :
    (limit = Option.none → r.limit = settings.max_row_limit) ∧
    (∀ l : Int, limit = Option.some l → settings.max_row_limit < l →
      r.limit = settings.max_row_limit) ∧
    (∀ l : Int, limit = Option.some l → l ≤ settings.max_row_limit →
      r.limit = l) ∧
    (∀ l : Int, limit = Option.some l → r.limit ≤ l) := by
  rw [enforce_query_safety_of_not_denied table query limit settings hd] at hr
  by_cases hbig : settings.large_table_names.contains table && !(_has_date_filter query)
  · rw [if_pos hbig] at hr
    exact absurd hr (by simp)
  · rw [if_neg hbig] at hr
    have hr2 : (⟨effective_limit limit settings⟩ : SafetyResult) = r :=
      Except.ok.inj hr
    have hl0 : r.limit = effective_limit limit settings := by
      rw [← hr2]
    refine ⟨?_, ?_, ?_, ?_⟩
    · intro hnone
      subst hnone
      rw [hl0]
      rfl
    · intro l hl hlt
      subst hl
      rw [hl0]
      simp [effective_limit, hlt]
    · intro l hl hle
      subst hl
      rw [hl0]
      simp [effective_limit, Int.not_lt.mpr hle]
    · intro l hl
      subst hl
      rw [hl0]
      simp only [effective_limit]
      by_cases hlt : settings.max_row_limit < l
      · simp only [hlt, if_true]
        omega
      · simp only [hlt, if_false]
        omega

/-- Witness for C4 at a concrete non-denied table with requested limit
500 against a cap of 100. -/
theorem enforce_query_safety_limit_witness :
    SafetyResult.limit ⟨100⟩ = (100 : Int) ∧ (100 : Int) ≤ 500 := by
  have h := enforce_query_safety_limit "incident" "" (Option.some 500)
    ⟨"dev", 100, []⟩ (by decide) ⟨100⟩ rfl
  exact ⟨h.2.1 500 rfl (by decide), by decide⟩

/-- Claim C9: for a non-deny-listed table, `can_write` is exactly the
pure boolean `!is_production || override`: false in production without
an override, true in production with one, and true outside production
regardless of the override. (The embedding is a total boolean
function, matching the code, which cannot raise.) -/
theorem can_write_decision (table : String) (settings : Settings) (override : Bool)
    (hd : DENIED_TABLES.contains table = false) :
    can_write table settings override = (!settings.is_production || override) := by
  rw [can_write, hd]
  cases hp : settings.is_production <;> cases override <;> simp

/-- Witness for C9: the three concrete cases of the spec example, at
table `"incident"` with a production and a dev environment. -/
theorem can_write_decision_witness :
    can_write "incident" ⟨"prod", 100, []⟩ false = false ∧
    can_write "incident" ⟨"prod", 100, []⟩ true = true ∧
    can_write "incident" ⟨"dev", 100, []⟩ false = true := by
  refine ⟨?_, ?_, ?_⟩ <;>
    rw [can_write_decision _ _ _ (by decide)] <;> decide

/-- Claim C5: a query against a large-table (and not deny-listed — the
deny-list check precedes the large-table rule) raises
`QuerySafetyError` exactly when the filter string contains none of the
configured date-field names as a substring, for every limit; and
splicing any one configured date-field name anywhere into any filter
string makes the same call succeed — a pure substring test, not a
parse of the filter language. -/
theorem large_table_date_filter (table query : String) (limit : Option Int)
    (settings : Settings)
    (hL : settings.large_table_names.contains table = true)
    (hd : DENIED_TABLES.contains table = false) :
    (enforce_query_safety table query limit settings =
        Except.error PolicyFailure.querySafetyError ↔
      _has_date_filter query = false) ∧
    (∀ f : String, f ∈ _DATE_FIELD_PATTERNS → ∀ pre post : String,
      enforce_query_safety table (pre ++ f ++ post) limit settings =
        Except.ok ⟨effective_limit limit settings⟩) := by
  constructor
  · rw [enforce_query_safety_of_not_denied table query limit settings hd, hL]
    cases hq : _has_date_filter query
    · simp
    · simp
  · intro f hf pre post
    have hdate : _has_date_filter (pre ++ f ++ post) = true := by
      rw [_has_date_filter, List.any_eq_true]
      refine ⟨f, hf, ?_⟩
      rw [String.data_append, String.data_append, List.append_assoc]
      exact isInfixB_append f.data pre.data post.data
    rw [enforce_query_safety_of_not_denied table (pre ++ f ++ post) limit settings hd,
      hdate]
    simp

/-- Witness for C5: the default-configured large table `syslog` with a
date-free filter fails, and the same filter with `sys_created_on`
spliced in succeeds. -/
theorem large_table_date_filter_witness :
    enforce_query_safety "syslog" "active=true" (Option.some 10)
        ⟨"dev", 100, ["syslog"]⟩ =
      Except.error PolicyFailure.querySafetyError ∧
    enforce_query_safety "syslog" ("active=true^" ++ "sys_created_on" ++ ">=2024")
        (Option.some 10) ⟨"dev", 100, ["syslog"]⟩ =
      Except.ok ⟨10⟩ := by
  have h := large_table_date_filter "syslog" "active=true" (Option.some 10)
    ⟨"dev", 100, ["syslog"]⟩ (by decide) (by decide)
  exact ⟨h.1.mpr (by decide),
    h.2 "sys_created_on" (by decide) "active=true^" ">=2024"⟩

/-- Claim C6: `mask_sensitive_fields` preserves the key sequence of the
record, and pointwise replaces the value of every field whose name
matches a sensitivity pattern with the fixed sentinel (whatever the
type of the original value) while passing every non-matching field
through unchanged. The Python code first copies the record
(`dict(record)`) and mutates only the copy; the embedding of this
non-mutation is that the function is pure in its argument. -/
theorem mask_sensitive_fields_pointwise (r : List (String × PyValue)) :
    (mask_sensitive_fields r).map Prod.fst = r.map Prod.fst ∧
    (∀ (i : Nat) (h : i < r.length) (h2 : i < (mask_sensitive_fields r).length),
      (mask_sensitive_fields r).get ⟨i, h2⟩ =
        (if _is_sensitive_field (r.get ⟨i, h⟩).1 = true
        then ((r.get ⟨i, h⟩).1, MASK_VALUE)
        else r.get ⟨i, h⟩)) := by
  induction r with
  | nil =>
    exact ⟨rfl, fun i h _ => absurd h (Nat.not_lt_zero i)⟩
  | cons kv rest ih =>
    obtain ⟨k, v⟩ := kv
    refine ⟨?_, ?_⟩
    · simpa [mask_sensitive_fields] using ih.1
    · intro i h h2
      cases i with
      | zero =>
        cases hs : _is_sensitive_field k
        · simp [mask_sensitive_fields, List.get, hs]
        · simp [mask_sensitive_fields, List.get, hs]
      | succ j =>
        have hj : j < rest.length := by
          simpa using h
        have hj2 : j < (mask_sensitive_fields rest).length := by
          simpa [mask_sensitive_fields] using h2
        simpa [mask_sensitive_fields, List.get] using ih.2 j hj hj2

/-- Witness for C6 at a concrete two-field record: the `api_key`-named
field (holding a non-string value) is replaced by the sentinel and the
other field is untouched. -/
theorem mask_sensitive_fields_pointwise_witness :
    (mask_sensitive_fields
        [("API_KEY_field", PyValue.int 5), ("short_description", PyValue.str "d")]).get
      ⟨0, by decide⟩ = ("API_KEY_field", MASK_VALUE) ∧
    (mask_sensitive_fields
        [("API_KEY_field", PyValue.int 5), ("short_description", PyValue.str "d")]).get
      ⟨1, by decide⟩ = ("short_description", PyValue.str "d") := by
  have h := mask_sensitive_fields_pointwise
    [("API_KEY_field", PyValue.int 5), ("short_description", PyValue.str "d")]
  constructor
  · rw [h.2 0 (by decide) (by decide)]
    decide
  · rw [h.2 1 (by decide) (by decide)]
    decide

/-! ## State store lemmas -/

theorem lookup_filter_ne {β : Type} (k : String) (l : List (String × β)) :
    (l.filter (fun kv => kv.1 != k)).lookup k = Option.none := by
  induction l with
  | nil => rfl
  | cons kv rest ih =>
    obtain ⟨k1, v1⟩ := kv
    by_cases h : k1 = k
    · subst h
      simpa using ih
    · simp only [List.filter_cons]
      rw [if_pos (by simpa using h)]
      rw [List.lookup]
      rw [show (k == k1) = false from by simpa using Ne.symm h]
      exact ih

theorem getOfLookupNone {P : Type} (s : PreviewTokenStore P) (tok : String) (t : ℚ)
    (h : s.store.lookup tok = Option.none) :
    (s.get tok t).1 = Option.none := by
  rw [PreviewTokenStore.get, h]

theorem consumeOfLookupNone {P : Type} (s : PreviewTokenStore P) (tok : String) (t : ℚ)
    (h : s.store.lookup tok = Option.none) :
    (s.consume tok t).1 = Option.none := by
  rw [PreviewTokenStore.consume, h]

theorem get_eq_active {P : Type} (s : PreviewTokenStore P) (tok : String) (t : ℚ)
    (e : TokenEntry P) (hlk : s.store.lookup tok = Option.some e)
    (hex : s.isExpired e t = false) :
    s.get tok t = (Option.some e.payload, s) := by
  rw [PreviewTokenStore.get, hlk]
  simp [hex]

theorem get_eq_expired {P : Type} (s : PreviewTokenStore P) (tok : String) (t : ℚ)
    (e : TokenEntry P) (hlk : s.store.lookup tok = Option.some e)
    (hex : s.isExpired e t = true) :
    s.get tok t = (Option.none, ⟨s.ttl, s.store.filter (fun kv => kv.1 != tok)⟩) := by
  rw [PreviewTokenStore.get, hlk]
  simp [hex]

theorem consume_eq_active {P : Type} (s : PreviewTokenStore P) (tok : String) (t : ℚ)
    (e : TokenEntry P) (hlk : s.store.lookup tok = Option.some e)
    (hex : s.isExpired e t = false) :
    s.consume tok t =
      (Option.some e.payload, ⟨s.ttl, s.store.filter (fun kv => kv.1 != tok)⟩) := by
  rw [PreviewTokenStore.consume, hlk]
  simp [hex]

theorem consume_eq_expired {P : Type} (s : PreviewTokenStore P) (tok : String) (t : ℚ)
    (e : TokenEntry P) (hlk : s.store.lookup tok = Option.some e)
    (hex : s.isExpired e t = true) :
    s.consume tok t =
      (Option.none, ⟨s.ttl, s.store.filter (fun kv => kv.1 != tok)⟩) := by
  rw [PreviewTokenStore.consume, hlk]
  simp [hex]

/-- A successful `consume` leaves a store in which the token no longer
resolves. -/
theorem consume_deletes {P : Type} (s : PreviewTokenStore P) (tok : String) (t : ℚ)
    (q : P) (h : (s.consume tok t).1 = Option.some q) :
    (s.consume tok t).2.store.lookup tok = Option.none := by
  cases hlk : s.store.lookup tok with
  | none =>
    rw [consumeOfLookupNone s tok t hlk] at h
    exact absurd h (by simp)
  | some e =>
    by_cases hex : s.isExpired e t
    · rw [consume_eq_expired s tok t e hlk hex] at h
      exact absurd h (by simp)
    · rw [consume_eq_active s tok t e hlk (by simpa using hex)]
      exact lookup_filter_ne tok s.store

/-! ## Token store claim theorems -/

/-- Claim C2: the preview-token lifecycle. A token created with payload
`p` and consumed while its age is within the TTL yields `p`; after a
successful consume, both a second `consume` and a `get` of the same
token yield `None` at any later (or any) time — so a token is consumed
at most once; and any stored token whose age strictly exceeds the TTL
yields `None` from both `get` and `consume` even if it was never
consumed. -/
theorem preview_token_lifecycle {P : Type} (s : PreviewTokenStore P)
    (tok : String) (p : P) (t0 t1 : ℚ) (hT : t1 - t0 ≤ s.ttl) :
    ((s.create tok p t0).consume tok t1).1 = Option.some p ∧
    (∀ (s2 : PreviewTokenStore P) (q : P) (t2 t3 : ℚ),
      (s2.consume tok t2).1 = Option.some q →
      ((s2.consume tok t2).2.get tok t3).1 = Option.none ∧
      ((s2.consume tok t2).2.consume tok t3).1 = Option.none) ∧
    (∀ (s3 : PreviewTokenStore P) (e : TokenEntry P) (t4 : ℚ),
      s3.store.lookup tok = Option.some e → s3.ttl < t4 - e.created_at →
      (s3.get tok t4).1 = Option.none ∧ (s3.consume tok t4).1 = Option.none) := by
  refine ⟨?_, ?_, ?_⟩
  · have hlk : (s.create tok p t0).store.lookup tok = Option.some ⟨p, t0⟩ := by
      rw [PreviewTokenStore.create]
      simp [List.lookup]
    have hex : (s.create tok p t0).isExpired ⟨p, t0⟩ t1 = false := by
      rw [PreviewTokenStore.isExpired]
      exact decide_eq_false (not_lt.mpr hT)
    rw [consume_eq_active _ tok t1 _ hlk hex]
  · intro s2 q t2 t3 hq
    have hdel := consume_deletes s2 tok t2 q hq
    exact ⟨getOfLookupNone _ tok t3 hdel, consumeOfLookupNone _ tok t3 hdel⟩
  · intro s3 e t4 hlk hage
    have hex : s3.isExpired e t4 = true := by
      rw [PreviewTokenStore.isExpired]
      exact decide_eq_true hage
    constructor
    · rw [get_eq_expired s3 tok t4 e hlk hex]
    · rw [consume_eq_expired s3 tok t4 e hlk hex]

/-- Witness for C2: a fresh 300-second store; create at time 0, consume
at time 100 yields the payload; consuming again at time 150 yields
`None`; and a store holding a token of age 301 yields `None`. -/
theorem preview_token_lifecycle_witness :
    (((⟨300, []⟩ : PreviewTokenStore String).create "t" "pay" 0).consume "t" 100).1 =
      Option.some "pay" ∧
    (((((⟨300, []⟩ : PreviewTokenStore String).create "t" "pay" 0).consume "t" 100).2.consume
        "t" 150).1 = Option.none) ∧
    ((⟨300, [("u", ⟨"old", 0⟩)]⟩ : PreviewTokenStore String).get "u" 301).1 =
      Option.none := by
  have h := preview_token_lifecycle (⟨300, []⟩ : PreviewTokenStore String)
    "t" "pay" 0 100 (by norm_num)
  have h2 := preview_token_lifecycle (⟨300, [("u", ⟨"old", 0⟩)]⟩ : PreviewTokenStore String)
    "u" "pay" 0 100 (by norm_num)
  exact ⟨h.1, (h.2.1 _ "pay" 100 150 h.1).2,
    (h2.2.2 (⟨300, [("u", ⟨"old", 0⟩)]⟩ : PreviewTokenStore String) ⟨"old", 0⟩ 301 rfl
      (by norm_num)).1⟩

/-- Claim C10: the expiry boundary is strict. An access (`get` or
`consume`) of a stored token at an age exactly equal to the TTL still
returns the payload; only a strictly greater age makes both return
`None`. -/
theorem preview_token_expiry_boundary {P : Type} (s : PreviewTokenStore P)
    (tok : String) (e : TokenEntry P) (t : ℚ)
    (hlk : s.store.lookup tok = Option.some e) :
    (t - e.created_at = s.ttl →
      (s.get tok t).1 = Option.some e.payload ∧
      (s.consume tok t).1 = Option.some e.payload) ∧
    (s.ttl < t - e.created_at →
      (s.get tok t).1 = Option.none ∧ (s.consume tok t).1 = Option.none) := by
  constructor
  · intro hb
    have hex : s.isExpired e t = false := by
      rw [PreviewTokenStore.isExpired]
      exact decide_eq_false (by rw [hb]; exact lt_irrefl s.ttl)
    constructor
    · rw [get_eq_active s tok t e hlk hex]
    · rw [consume_eq_active s tok t e hlk hex]
  · intro hage
    have hex : s.isExpired e t = true := by
      rw [PreviewTokenStore.isExpired]
      exact decide_eq_true hage
    constructor
    · rw [get_eq_expired s tok t e hlk hex]
    · rw [consume_eq_expired s tok t e hlk hex]

/-- Witness for C10: in a 300-second store, a token created at time 0 is
still readable at time exactly 300 and gone at time 301. -/
theorem preview_token_expiry_boundary_witness :
    ((⟨300, [("t", ⟨"x", 0⟩)]⟩ : PreviewTokenStore String).get "t" 300).1 =
      Option.some "x" ∧
    ((⟨300, [("t", ⟨"x", 0⟩)]⟩ : PreviewTokenStore String).get "t" 301).1 =
      Option.none := by
  constructor
  · exact ((preview_token_expiry_boundary
      (⟨300, [("t", ⟨"x", 0⟩)]⟩ : PreviewTokenStore String) "t" ⟨"x", 0⟩ 300
      rfl).1 (by norm_num)).1
  · exact ((preview_token_expiry_boundary
      (⟨300, [("t", ⟨"x", 0⟩)]⟩ : PreviewTokenStore String) "t" ⟨"x", 0⟩ 301
      rfl).2 (by norm_num)).1

/-! ## Seed ledger lemmas and claim -/

theorem lookup_map_append_entry (tag : String) (l : List (String × List SeedEntry))
    (e : SeedEntry) :
    (l.map (fun kv => if kv.1 == tag then (kv.1, kv.2 ++ [e]) else kv)).lookup tag =
      (l.lookup tag).map (fun v => v ++ [e]) := by
  induction l with
  | nil => rfl
  | cons kv rest ih =>
    obtain ⟨k1, v1⟩ := kv
    by_cases h : k1 = tag
    · subst h
      simp only [List.map_cons]
      rw [if_pos (by simp : ((k1 == k1) = true))]
      rw [List.lookup]
      rw [show (k1 == k1) = true from by simp]
      rw [List.lookup]
      rw [show (k1 == k1) = true from by simp]
      rfl
    · simp only [List.map_cons]
      rw [if_neg (by simpa using h)]
      rw [List.lookup, List.lookup]
      rw [show (tag == k1) = false from by simpa using Ne.symm h]
      exact ih

theorem lookup_append_single {β : Type} (tag : String) (l : List (String × β)) (x : β)
    (h : l.lookup tag = Option.none) :
    (l ++ [(tag, x)]).lookup tag = Option.some x := by
  induction l with
  | nil => simp [List.lookup]
  | cons kv rest ih =>
    obtain ⟨k1, v1⟩ := kv
    by_cases hk : tag = k1
    · subst hk
      rw [List.lookup] at h
      rw [show (tag == tag) = true from by simp] at h
      exact absurd h (by simp)
    · rw [List.lookup] at h
      rw [show (tag == k1) = false from by simpa using hk] at h
      rw [List.cons_append, List.lookup]
      rw [show (tag == k1) = false from by simpa using hk]
      exact ih h

/-- A single `track` appends one entry to the (possibly empty) list
held for the tag. -/
theorem track_get (s : SeededRecordTracker) (tag tb : String) (ids : List String) :
    (s.track tag tb ids).get tag =
      Option.some (((s.get tag).getD []) ++ [⟨tb, ids⟩]) := by
  rw [SeededRecordTracker.track, SeededRecordTracker.get, SeededRecordTracker.get]
  cases hlk : s.store.lookup tag with
  | none =>
    simp only [Option.isSome_none, Bool.false_eq_true, if_false]
    rw [lookup_append_single tag s.store _ hlk]
    simp
  | some v =>
    simp only [Option.isSome_some, if_true]
    rw [lookup_map_append_entry tag s.store ⟨tb, ids⟩, hlk]
    simp

/-- Claim C7: the seed ledger. Two successive `track` calls on the same
tag (with possibly different tables) accumulate, so a following `get`
returns both entries appended in insertion order after whatever was
already tracked; `get` on an unknown tag returns `None`; and after
`remove`, `get` on the tag returns `None` — the whole ledger entry for
the tag is deleted, never part of it. -/
theorem seed_ledger_lifecycle (s : SeededRecordTracker) (tag : String) :
    (∀ (tb1 tb2 : String) (ids1 ids2 : List String),
      ((s.track tag tb1 ids1).track tag tb2 ids2).get tag =
        Option.some (((s.get tag).getD []) ++ [⟨tb1, ids1⟩, ⟨tb2, ids2⟩])) ∧
    (s.store.lookup tag = Option.none → s.get tag = Option.none) ∧
    (∀ (s2 : SeededRecordTracker), (s2.remove tag).get tag = Option.none) := by
  refine ⟨?_, ?_, ?_⟩
  · intro tb1 tb2 ids1 ids2
    rw [track_get, track_get]
    simp
  · intro h
    rw [SeededRecordTracker.get]
    exact h
  · intro s2
    rw [SeededRecordTracker.remove, SeededRecordTracker.get]
    exact lookup_filter_ne tag s2.store

/-- Witness for C7: the spec example on an empty ledger — track
`incident`/`["a"]` then `problem`/`["b"]` under the tag `"x"`, read
both entries back, and removal empties the tag. -/
theorem seed_ledger_lifecycle_witness :
    ((((⟨[]⟩ : SeededRecordTracker).track "x" "incident" ["a"]).track "x" "problem"
        ["b"]).get "x") =
      Option.some [⟨"incident", ["a"]⟩, ⟨"problem", ["b"]⟩] ∧
    ((⟨[]⟩ : SeededRecordTracker).get "x") = Option.none ∧
    ((((⟨[]⟩ : SeededRecordTracker).track "x" "incident" ["a"]).remove "x").get "x") =
      Option.none := by
  have h := seed_ledger_lifecycle (⟨[]⟩ : SeededRecordTracker) "x"
  refine ⟨?_, h.2.1 rfl, h.2.2 ((⟨[]⟩ : SeededRecordTracker).track "x" "incident" ["a"])⟩
  have h1 := h.1 "incident" "problem" ["a"] ["b"]
  simpa [SeededRecordTracker.get] using h1

/-! ## Grouping lemmas -/

theorem mem_orderedKeys {α : Type} (key : α → String) (l : List α) (seen : List String)
    (n : String) :
    n ∈ orderedKeys key l seen ↔ (n ∉ seen ∧ ∃ a ∈ l, key a = n) := by
  induction l generalizing seen with
  | nil => simp [orderedKeys]
  | cons a rest ih =>
    rw [orderedKeys]
    by_cases h : seen.contains (key a)
    · rw [if_pos h]
      rw [ih]
      constructor
      · rintro ⟨hn, b, hb, hk⟩
        exact ⟨hn, b, List.mem_cons_of_mem a hb, hk⟩
      · rintro ⟨hn, b, hb, hk⟩
        rcases List.mem_cons.mp hb with h1 | h1
        · subst h1
          rw [← hk] at hn
          exact absurd (by simpa using h) hn
        · exact ⟨hn, b, h1, hk⟩
    · rw [if_neg h]
      constructor
      · intro hmem
        rcases List.mem_cons.mp hmem with h1 | h1
        · subst h1
          exact ⟨by simpa using h, a, List.mem_cons_self a rest, rfl⟩
        · obtain ⟨hn, b, hb, hk⟩ := (ih (key a :: seen)).mp h1
          exact ⟨fun hc => hn (List.mem_cons_of_mem _ hc), b,
            List.mem_cons_of_mem a hb, hk⟩
      · rintro ⟨hn, b, hb, hk⟩
        by_cases hna : n = key a
        · subst hna
          exact List.mem_cons_self _ _
        · rcases List.mem_cons.mp hb with h1 | h1
          · subst h1
            exact absurd hk (Ne.symm hna)
          · refine List.mem_cons_of_mem _ ((ih (key a :: seen)).mpr ⟨?_, b, h1, hk⟩)
            intro hc
            rcases List.mem_cons.mp hc with h2 | h2
            · exact hna h2
            · exact hn h2

theorem nodup_orderedKeys {α : Type} (key : α → String) (l : List α) (seen : List String) :
    (orderedKeys key l seen).Nodup := by
  induction l generalizing seen with
  | nil => exact List.nodup_nil
  | cons a rest ih =>
    rw [orderedKeys]
    by_cases h : seen.contains (key a)
    · rw [if_pos h]
      exact ih seen
    · rw [if_neg h]
      refine List.Nodup.cons ?_ (ih _)
      intro hmem
      exact ((mem_orderedKeys key rest _ _).mp hmem).1 (List.mem_cons_self _ _)

theorem mem_groupByKey {α : Type} (key : α → String) (l : List α) (g : String × List α) :
    g ∈ groupByKey key l ↔
      (g.1 ∈ orderedKeys key l [] ∧ g.2 = l.filter (fun a => key a == g.1)) := by
  obtain ⟨gn, gl⟩ := g
  rw [groupByKey]
  constructor
  · intro h
    rcases List.mem_map.mp h with ⟨n, hn, heq⟩
    obtain ⟨h1, h2⟩ := Prod.mk.injEq .. ▸ heq
    exact ⟨h1 ▸ hn, by rw [← h1, ← h2]⟩
  · rintro ⟨h1, h2⟩
    refine List.mem_map.mpr ⟨gn, h1, ?_⟩
    have h3 : gl = List.filter (fun a => key a == gn) l := h2
    rw [h3]

theorem filter_ne_nil_of_mem_orderedKeys {α : Type} (key : α → String) (l : List α)
    (n : String) (h : n ∈ orderedKeys key l []) :
    l.filter (fun a => key a == n) ≠ [] := by
  obtain ⟨-, a, ha, hk⟩ := (mem_orderedKeys key l [] n).mp h
  intro hnil
  have hmem : a ∈ l.filter (fun a => key a == n) :=
    List.mem_filter.mpr ⟨ha, by simp [hk]⟩
  rw [hnil] at hmem
  exact absurd hmem (List.not_mem_nil a)

/-- Counting findings by name over a `filterMap` of a duplicate-free key
list: exactly one finding is emitted for the key `n` when `n` is a key
and the emitter fires on it, zero otherwise. -/
theorem length_filter_filterMap_nodup (keys : List String)
    (F : String → Option AclFinding)
    (hname : ∀ k f, F k = Option.some f → f.name = k)
    (hnd : keys.Nodup) (n : String) :
    ((keys.filterMap F).filter (fun f => f.name == n)).length =
      (if n ∈ keys ∧ (F n).isSome then 1 else 0) := by
  induction keys with
  | nil => simp
  | cons k ks ih =>
    obtain ⟨hknotin, hnd2⟩ := List.nodup_cons.mp hnd
    rw [List.filterMap_cons]
    cases hFk : F k with
    | none =>
      rw [ih hnd2]
      by_cases hnk : n = k
      · subst hnk
        rw [if_neg (by simp [hFk]), if_neg]
        rintro ⟨hmem, hsome⟩
        rw [hFk] at hsome
        exact absurd hsome (by simp)
      · by_cases hcond : n ∈ ks ∧ (F n).isSome
        · rw [if_pos hcond, if_pos ⟨List.mem_cons_of_mem k hcond.1, hcond.2⟩]
        · rw [if_neg hcond, if_neg]
          rintro ⟨hmem, hsome⟩
          rcases List.mem_cons.mp hmem with h1 | h1
          · exact hnk h1
          · exact hcond ⟨h1, hsome⟩
    | some f =>
      have hfname := hname k f hFk
      rw [List.filter_cons]
      by_cases hnk : k = n
      · subst hnk
        rw [if_pos (by simp [hfname])]
        rw [List.length_cons, ih hnd2]
        rw [if_neg (fun hc => absurd hc.1 hknotin)]
        rw [if_pos ⟨List.mem_cons_self k ks, by simp [hFk]⟩]
      · rw [if_neg (by simp [hfname, hnk])]
        rw [ih hnd2]
        by_cases hcond : n ∈ ks ∧ (F n).isSome
        · rw [if_pos hcond, if_pos ⟨List.mem_cons_of_mem k hcond.1, hcond.2⟩]
        · rw [if_neg hcond, if_neg]
          rintro ⟨hmem, hsome⟩
          rcases List.mem_cons.mp hmem with h1 | h1
          · exact hnk h1.symm
          · exact hcond ⟨h1, hsome⟩

/-! ## ACL conflict investigation (C1) -/

/-- The group of candidate ACL records sharing the name `n` — exactly
the member list `acl_conflicts_run` gathers under `n`. -/
def nameGroup (acls : List SnRecord) (n : String) : List SnRecord :=
  acls.filter (fun a => recGetD a "name" "" == n)

/-- Claim C1, counterexample to the claim as stated: these two ACL
records share the name `incident.read` and carry identical conditions,
so no group has two members with differing conditions and the claim
predicts zero findings; the code nevertheless reports one finding
(whose member list shows the two identical conditions), because `run`
groups by name and tests only the group size, never comparing
conditions. -/
theorem acl_conflicts_equal_conditions_counterexample :
    (acl_conflicts_run
      [[("sys_id", "a1"), ("name", "incident.read"), ("operation", "read"),
        ("condition", "active=true"), ("active", "true")],
       [("sys_id", "a2"), ("name", "incident.read"), ("operation", "read"),
        ("condition", "active=true"), ("active", "true")]]).finding_count = 1 ∧
    ((acl_conflicts_run
      [[("sys_id", "a1"), ("name", "incident.read"), ("operation", "read"),
        ("condition", "active=true"), ("active", "true")],
       [("sys_id", "a2"), ("name", "incident.read"), ("operation", "read"),
        ("condition", "active=true"), ("active", "true")]]).findings.map
        (fun f => f.acls.map (fun a => a.condition))) =
      [["active=true", "active=true"]] := by
  decide

/-- Claim C1 as amended: a conflict finding is produced for a name
group exactly when the group has at least two members — regardless of
whether their conditions differ — and each such group yields exactly
one finding carrying the full member list and its size; in particular
the spec examples hold: two ACLs named `incident.read` with different
conditions yield exactly one finding with count 2, and two ACLs with
distinct names yield zero findings. -/
theorem acl_conflicts_by_name_only (acls : List SnRecord) :
    (∀ n : String,
      ((acl_conflicts_run acls).findings.filter (fun f => f.name == n)).length =
        (if 2 ≤ (nameGroup acls n).length then 1 else 0)) ∧
    (∀ f, f ∈ (acl_conflicts_run acls).findings →
      2 ≤ (nameGroup acls f.name).length ∧
      f.count = (nameGroup acls f.name).length ∧
      f.acls = (nameGroup acls f.name).map aclProject) ∧
    (acl_conflicts_run acls).finding_count =
      (acl_conflicts_run acls).findings.length ∧
    (acl_conflicts_run
      [[("sys_id", "a1"), ("name", "incident.read"), ("operation", "read"),
        ("condition", "active=true"), ("active", "true")],
       [("sys_id", "a2"), ("name", "incident.read"), ("operation", "read"),
        ("condition", "priority=1"), ("active", "true")]]).findings.map
        (fun f => (f.name, f.count)) = [("incident.read", 2)] ∧
    (acl_conflicts_run
      [[("sys_id", "a1"), ("name", "incident.read"), ("operation", "read"),
        ("condition", "active=true"), ("active", "true")],
       [("sys_id", "a2"), ("name", "incident.write"), ("operation", "write"),
        ("condition", "priority=1"), ("active", "true")]]).finding_count = 0 := by
  have hfind : (acl_conflicts_run acls).findings =
      (orderedKeys (fun a => recGetD a "name" "") acls []).filterMap (fun n =>
        if 2 ≤ (nameGroup acls n).length then
          Option.some ⟨n, (nameGroup acls n).length, (nameGroup acls n).map aclProject⟩
        else
          Option.none) := by
    simp only [acl_conflicts_run, groupByKey, List.filterMap_map]
    rfl
  have hname : ∀ k f,
      (if 2 ≤ (nameGroup acls k).length then
        Option.some (⟨k, (nameGroup acls k).length, (nameGroup acls k).map aclProject⟩ :
          AclFinding)
      else Option.none) = Option.some f → f.name = k := by
    intro k f h
    by_cases hc : 2 ≤ (nameGroup acls k).length
    · rw [if_pos hc] at h
      cases Option.some.inj h
      rfl
    · rw [if_neg hc] at h
      exact absurd h (by simp)
  refine ⟨?_, ?_, rfl, by decide, by decide⟩
  · intro n
    rw [hfind]
    rw [length_filter_filterMap_nodup _ _ hname
      (nodup_orderedKeys (fun a => recGetD a "name" "") acls []) n]
    by_cases hc : 2 ≤ (nameGroup acls n).length
    · have hmemk : n ∈ orderedKeys (fun a => recGetD a "name" "") acls [] := by
        obtain ⟨a, ha⟩ := List.exists_mem_of_length_pos (by omega :
          0 < (nameGroup acls n).length)
        rw [nameGroup] at ha
        obtain ⟨hal, hak⟩ := List.mem_filter.mp ha
        exact (mem_orderedKeys _ acls [] n).mpr
          ⟨List.not_mem_nil n, a, hal, by simpa using hak⟩
      rw [if_pos ⟨hmemk, by simp [hc]⟩, if_pos hc]
    · have hns : ¬(n ∈ orderedKeys (fun a => recGetD a "name" "") acls [] ∧
          (if 2 ≤ (nameGroup acls n).length then
            Option.some (⟨n, (nameGroup acls n).length,
              (nameGroup acls n).map aclProject⟩ : AclFinding)
          else Option.none).isSome = true) := by
        rintro ⟨hmem, hsome⟩
        rw [if_neg hc] at hsome
        exact absurd hsome (by simp)
      rw [if_neg hns, if_neg hc]
  · intro f hf
    rw [hfind] at hf
    obtain ⟨n, hn, hFn⟩ := List.mem_filterMap.mp hf
    by_cases hc : 2 ≤ (nameGroup acls n).length
    · rw [if_pos hc] at hFn
      cases Option.some.inj hFn
      exact ⟨hc, rfl, rfl⟩
    · rw [if_neg hc] at hFn
      exact absurd hFn (by simp)

/-- Witness for the amended C1 theorem at the spec example input: for
the name `incident.read`, the two-member group yields exactly one
finding. -/
theorem acl_conflicts_by_name_only_witness :
    (((acl_conflicts_run
      [[("sys_id", "a1"), ("name", "incident.read"), ("operation", "read"),
        ("condition", "active=true"), ("active", "true")],
       [("sys_id", "a2"), ("name", "incident.read"), ("operation", "read"),
        ("condition", "priority=1"), ("active", "true")]]).findings.filter
        (fun f => f.name == "incident.read")).length) = 1 := by
  have h := acl_conflicts_by_name_only
    [[("sys_id", "a1"), ("name", "incident.read"), ("operation", "read"),
      ("condition", "active=true"), ("active", "true")],
     [("sys_id", "a2"), ("name", "incident.read"), ("operation", "read"),
      ("condition", "priority=1"), ("active", "true")]]
  rw [h.1 "incident.read"]
  decide

/-! ## Lexicographic order lemmas -/

theorem lexLeB_refl (a : List Char) : lexLeB a a = true := by
  induction a with
  | nil => rfl
  | cons c cs ih =>
    rw [lexLeB]
    rw [if_neg (Nat.lt_irrefl c.toNat), if_neg (Nat.lt_irrefl c.toNat)]
    exact ih

theorem lexLtB_imp_le (a b : List Char) (h : lexLtB a b = true) : lexLeB a b = true := by
  induction a generalizing b with
  | nil => cases b <;> rfl
  | cons c cs ih =>
    cases b with
    | nil =>
      rw [lexLtB] at h
      exact absurd h (by simp)
    | cons d ds =>
      rw [lexLtB] at h
      rw [lexLeB]
      by_cases h1 : c.toNat < d.toNat
      · rw [if_pos h1]
      · rw [if_neg h1] at h ⊢
        by_cases h2 : d.toNat < c.toNat
        · rw [if_pos h2] at h
          exact absurd h (by simp)
        · rw [if_neg h2] at h ⊢
          exact ih ds h

theorem not_lexLtB_imp_le (a b : List Char) (h : lexLtB a b = false) :
    lexLeB b a = true := by
  induction a generalizing b with
  | nil =>
    cases b with
    | nil => rfl
    | cons d ds =>
      rw [lexLtB] at h
      exact absurd h (by simp)
  | cons c cs ih =>
    cases b with
    | nil => rfl
    | cons d ds =>
      rw [lexLtB] at h
      rw [lexLeB]
      by_cases h1 : c.toNat < d.toNat
      · rw [if_pos h1] at h
        exact absurd h (by simp)
      · rw [if_neg h1] at h
        by_cases h2 : d.toNat < c.toNat
        · rw [if_pos h2]
        · rw [if_neg h2] at h
          rw [if_neg h2, if_neg h1]
          exact ih ds h

theorem lexLeB_trans (a b c : List Char) (h1 : lexLeB a b = true)
    (h2 : lexLeB b c = true) : lexLeB a c = true := by
  induction a generalizing b c with
  | nil => rfl
  | cons x xs ih =>
    cases b with
    | nil =>
      rw [lexLeB] at h1
      exact absurd h1 (by simp)
    | cons y ys =>
      cases c with
      | nil =>
        rw [lexLeB] at h2
        exact absurd h2 (by simp)
      | cons z zs =>
        rw [lexLeB] at h1 h2 ⊢
        by_cases hxy : x.toNat < y.toNat
        · by_cases hyz : y.toNat < z.toNat
          · rw [if_pos (by omega : x.toNat < z.toNat)]
          · rw [if_neg hyz] at h2
            by_cases hzy : z.toNat < y.toNat
            · rw [if_pos hzy] at h2
              exact absurd h2 (by simp)
            · rw [if_pos (by omega : x.toNat < z.toNat)]
        · rw [if_neg hxy] at h1
          by_cases hyx : y.toNat < x.toNat
          · rw [if_pos hyx] at h1
            exact absurd h1 (by simp)
          · rw [if_neg hyx] at h1
            by_cases hyz : y.toNat < z.toNat
            · rw [if_pos (by omega : x.toNat < z.toNat)]
            · rw [if_neg hyz] at h2
              by_cases hzy : z.toNat < y.toNat
              · rw [if_pos hzy] at h2
                exact absurd h2 (by simp)
              · rw [if_neg hzy] at h2
                rw [if_neg (by omega : ¬x.toNat < z.toNat),
                  if_neg (by omega : ¬z.toNat < x.toNat)]
                exact ih ys zs h1 h2

/-! ## Python min/max over nonempty string lists -/

theorem pyMinStr_step (t x : String) (ts : List String) :
    pyMinStr t (x :: ts) = pyMinStr (if lexLtB x.data t.data then x else t) ts := rfl

theorem pyMaxStr_step (t x : String) (ts : List String) :
    pyMaxStr t (x :: ts) = pyMaxStr (if lexLtB t.data x.data then x else t) ts := rfl

theorem pyMinStr_mem (t : String) (ts : List String) : pyMinStr t ts ∈ t :: ts := by
  induction ts generalizing t with
  | nil => exact List.mem_cons_self _ _
  | cons x ts ih =>
    rw [pyMinStr_step]
    have hsub : ∀ y, y ∈ (if lexLtB x.data t.data then x else t) :: ts →
        y ∈ t :: x :: ts := by
      intro y hy
      rcases List.mem_cons.mp hy with h1 | h1
      · by_cases h : lexLtB x.data t.data
        · rw [if_pos h] at h1
          subst h1
          exact List.mem_cons_of_mem _ (List.mem_cons_self _ _)
        · rw [if_neg h] at h1
          subst h1
          exact List.mem_cons_self _ _
      · exact List.mem_cons_of_mem _ (List.mem_cons_of_mem _ h1)
    exact hsub _ (ih _)

theorem pyMaxStr_mem (t : String) (ts : List String) : pyMaxStr t ts ∈ t :: ts := by
  induction ts generalizing t with
  | nil => exact List.mem_cons_self _ _
  | cons x ts ih =>
    rw [pyMaxStr_step]
    have hsub : ∀ y, y ∈ (if lexLtB t.data x.data then x else t) :: ts →
        y ∈ t :: x :: ts := by
      intro y hy
      rcases List.mem_cons.mp hy with h1 | h1
      · by_cases h : lexLtB t.data x.data
        · rw [if_pos h] at h1
          subst h1
          exact List.mem_cons_of_mem _ (List.mem_cons_self _ _)
        · rw [if_neg h] at h1
          subst h1
          exact List.mem_cons_self _ _
      · exact List.mem_cons_of_mem _ (List.mem_cons_of_mem _ h1)
    exact hsub _ (ih _)

theorem pyMinStr_le (t : String) (ts : List String) :
    ∀ x ∈ t :: ts, lexLeB (pyMinStr t ts).data x.data = true := by
  induction ts generalizing t with
  | nil =>
    intro x hx
    rcases List.mem_cons.mp hx with h1 | h1
    · subst h1
      exact lexLeB_refl _
    · exact absurd h1 (List.not_mem_nil x)
  | cons y ts ih =>
    intro x hx
    rw [pyMinStr_step]
    have hm_le_t2 : lexLeB (pyMinStr (if lexLtB y.data t.data then y else t) ts).data
        (if lexLtB y.data t.data then y else t).data = true :=
      ih _ _ (List.mem_cons_self _ _)
    have ht2_le_t : lexLeB (if lexLtB y.data t.data then y else t).data t.data = true := by
      by_cases h : lexLtB y.data t.data
      · rw [if_pos h]
        exact lexLtB_imp_le _ _ h
      · rw [if_neg h]
        exact lexLeB_refl _
    have ht2_le_y : lexLeB (if lexLtB y.data t.data then y else t).data y.data = true := by
      by_cases h : lexLtB y.data t.data
      · rw [if_pos h]
        exact lexLeB_refl _
      · rw [if_neg h]
        exact not_lexLtB_imp_le _ _ (by simpa using h)
    rcases List.mem_cons.mp hx with h1 | h1
    · subst h1
      exact lexLeB_trans _ _ _ hm_le_t2 ht2_le_t
    · rcases List.mem_cons.mp h1 with h2 | h2
      · subst h2
        exact lexLeB_trans _ _ _ hm_le_t2 ht2_le_y
      · exact ih _ x (List.mem_cons_of_mem _ h2)

theorem pyMaxStr_ge (t : String) (ts : List String) :
    ∀ x ∈ t :: ts, lexLeB x.data (pyMaxStr t ts).data = true := by
  induction ts generalizing t with
  | nil =>
    intro x hx
    rcases List.mem_cons.mp hx with h1 | h1
    · subst h1
      exact lexLeB_refl _
    · exact absurd h1 (List.not_mem_nil x)
  | cons y ts ih =>
    intro x hx
    rw [pyMaxStr_step]
    have ht2_ge : lexLeB (if lexLtB t.data y.data then y else t).data
        (pyMaxStr (if lexLtB t.data y.data then y else t) ts).data = true :=
      ih _ _ (List.mem_cons_self _ _)
    have ht_le_t2 : lexLeB t.data (if lexLtB t.data y.data then y else t).data = true := by
      by_cases h : lexLtB t.data y.data
      · rw [if_pos h]
        exact lexLtB_imp_le _ _ h
      · rw [if_neg h]
        exact lexLeB_refl _
    have hy_le_t2 : lexLeB y.data (if lexLtB t.data y.data then y else t).data = true := by
      by_cases h : lexLtB t.data y.data
      · rw [if_pos h]
        exact lexLeB_refl _
      · rw [if_neg h]
        exact not_lexLtB_imp_le _ _ (by simpa using h)
    rcases List.mem_cons.mp hx with h1 | h1
    · subst h1
      exact lexLeB_trans _ _ _ ht_le_t2 ht2_ge
    · rcases List.mem_cons.mp h1 with h2 | h2
      · subst h2
        exact lexLeB_trans _ _ _ hy_le_t2 ht2_ge
      · exact ih _ x (List.mem_cons_of_mem _ h2)

/-! ## Stable sort lemmas -/

theorem insertSorted_perm {α : Type} (le : α → α → Bool) (x : α) (l : List α) :
    (insertSorted le x l).Perm (x :: l) := by
  induction l with
  | nil => exact List.Perm.refl _
  | cons y ys ih =>
    rw [insertSorted]
    by_cases h : le x y
    · rw [if_pos h]
    · rw [if_neg h]
      exact (ih.cons y).trans (List.Perm.swap x y ys)

theorem stableSort_perm {α : Type} (le : α → α → Bool) (l : List α) :
    (stableSort le l).Perm l := by
  induction l with
  | nil => exact List.Perm.refl _
  | cons x xs ih =>
    rw [stableSort]
    exact (insertSorted_perm le x (stableSort le xs)).trans (ih.cons x)

theorem insertSorted_pairwise {α : Type} (le : α → α → Bool)
    (htrans : ∀ a b c, le a b = true → le b c = true → le a c = true)
    (htot : ∀ a b, le a b = true ∨ le b a = true)
    (x : α) (l : List α) (hl : l.Pairwise (fun a b => le a b = true)) :
    (insertSorted le x l).Pairwise (fun a b => le a b = true) := by
  induction l with
  | nil => simp [insertSorted]
  | cons y ys ih =>
    obtain ⟨hy, hys⟩ := List.pairwise_cons.mp hl
    rw [insertSorted]
    by_cases h : le x y
    · rw [if_pos h]
      refine List.pairwise_cons.mpr ⟨?_, hl⟩
      intro b hb
      rcases List.mem_cons.mp hb with h1 | h1
      · subst h1
        exact h
      · exact htrans x y b h (hy b h1)
    · rw [if_neg h]
      refine List.pairwise_cons.mpr ⟨?_, ih hys⟩
      intro b hb
      have hb2 := (insertSorted_perm le x ys).mem_iff.mp hb
      rcases List.mem_cons.mp hb2 with h1 | h1
      · rw [h1]
        rcases htot x y with h2 | h2
        · exact absurd h2 h
        · exact h2
      · exact hy b h1

theorem stableSort_pairwise {α : Type} (le : α → α → Bool)
    (htrans : ∀ a b c, le a b = true → le b c = true → le a c = true)
    (htot : ∀ a b, le a b = true ∨ le b a = true)
    (l : List α) :
    (stableSort le l).Pairwise (fun a b => le a b = true) := by
  induction l with
  | nil => exact List.Pairwise.nil
  | cons x xs ih =>
    rw [stableSort]
    exact insertSorted_pairwise le htrans htot x _ ih

/-! ## Error analysis investigation (C8) -/

/-- The cluster of fetched log records sharing the source `n` — exactly
the member list `error_analysis_run` gathers under `n`. -/
def sourceCluster (logs : List SnRecord) (n : String) : List SnRecord :=
  logs.filter (fun e => recGetD e "source" "unknown" == n)

/-- The `sys_created_on` strings of a source cluster. -/
def clusterTimestamps (logs : List SnRecord) (n : String) : List String :=
  (sourceCluster logs n).map (fun e => recGetD e "sys_created_on" "")

theorem errorFindingOf_first_seen (src : String) (entries : List SnRecord)
    (t : String) (ts : List String)
    (h : entries.map (fun e => recGetD e "sys_created_on" "") = t :: ts) :
    (errorFindingOf src entries).first_seen = pyMinStr t ts := by
  rw [errorFindingOf]
  simp only [h]

theorem errorFindingOf_last_seen (src : String) (entries : List SnRecord)
    (t : String) (ts : List String)
    (h : entries.map (fun e => recGetD e "sys_created_on" "") = t :: ts) :
    (errorFindingOf src entries).last_seen = pyMaxStr t ts := by
  rw [errorFindingOf]
  simp only [h]

/-- Claim C8: `error_analysis_run` groups the fetched records by their
source field and returns exactly one finding per cluster (the finding
sources are a permutation of the distinct sources in first-occurrence
order), sorted by descending frequency; each finding's `first_seen` is
the minimum timestamp of its cluster and `last_seen` the maximum (in
the code-point lexicographic order Python `min`/`max` use on strings),
with at most 3 sample messages; and on the spec example input it
returns exactly 2 findings, the first for source `A` with frequency 2. -/
theorem error_analysis_clusters (logs : List SnRecord) :
    ((error_analysis_run logs).findings.map (fun f => f.source)).Perm
      (orderedKeys (fun e => recGetD e "source" "unknown") logs []) ∧
    ((error_analysis_run logs).findings.Pairwise
      (fun f g => g.frequency ≤ f.frequency)) ∧
    (∀ f, f ∈ (error_analysis_run logs).findings →
      sourceCluster logs f.source ≠ [] ∧
      f.frequency = (sourceCluster logs f.source).length ∧
      f.sample_messages =
        ((sourceCluster logs f.source).take 3).map (fun e => recGetD e "message" "") ∧
      f.sample_messages.length ≤ 3 ∧
      f.first_seen ∈ clusterTimestamps logs f.source ∧
      (∀ x ∈ clusterTimestamps logs f.source,
        lexLeB f.first_seen.data x.data = true) ∧
      f.last_seen ∈ clusterTimestamps logs f.source ∧
      (∀ x ∈ clusterTimestamps logs f.source,
        lexLeB x.data f.last_seen.data = true)) ∧
    (error_analysis_run logs).finding_count =
      (error_analysis_run logs).findings.length ∧
    (error_analysis_run
      [[("sys_id", "l1"), ("message", "m1"), ("source", "A"), ("level", "0"),
        ("sys_created_on", "1")],
       [("sys_id", "l2"), ("message", "m2"), ("source", "A"), ("level", "0"),
        ("sys_created_on", "2")],
       [("sys_id", "l3"), ("message", "m3"), ("source", "B"), ("level", "0"),
        ("sys_created_on", "3")]]).findings.map
        (fun f => (f.source, f.frequency)) = [("A", 2), ("B", 1)] := by
  have htrans : ∀ a b c : String × List SnRecord,
      (fun a b : String × List SnRecord => decide (b.2.length ≤ a.2.length)) a b = true →
      (fun a b : String × List SnRecord => decide (b.2.length ≤ a.2.length)) b c = true →
      (fun a b : String × List SnRecord => decide (b.2.length ≤ a.2.length)) a c = true := by
    intro a b c h1 h2
    simp only [decide_eq_true_eq] at h1 h2 ⊢
    omega
  have htot : ∀ a b : String × List SnRecord,
      (fun a b : String × List SnRecord => decide (b.2.length ≤ a.2.length)) a b = true ∨
      (fun a b : String × List SnRecord => decide (b.2.length ≤ a.2.length)) b a = true := by
    intro a b
    simp only [decide_eq_true_eq]
    omega
  have hfind : (error_analysis_run logs).findings =
      (stableSort (fun a b => decide (b.2.length ≤ a.2.length))
        (groupByKey (fun e => recGetD e "source" "unknown") logs)).map
        (fun g => errorFindingOf g.1 g.2) := rfl
  refine ⟨?_, ?_, ?_, rfl, by decide⟩
  · rw [hfind, List.map_map]
    have h2 : (groupByKey (fun e => recGetD e "source" "unknown") logs).map
        (fun g => g.1) = orderedKeys (fun e => recGetD e "source" "unknown") logs [] := by
      rw [groupByKey, List.map_map]
      exact List.map_id _
    calc ((stableSort (fun a b => decide (b.2.length ≤ a.2.length))
            (groupByKey (fun e => recGetD e "source" "unknown") logs)).map
            ((fun f => f.source) ∘ (fun g => errorFindingOf g.1 g.2))).Perm
          ((groupByKey (fun e => recGetD e "source" "unknown") logs).map (fun g => g.1)) :=
        (stableSort_perm _ _).map _
      _ = orderedKeys (fun e => recGetD e "source" "unknown") logs [] := h2
  · rw [hfind]
    exact List.Pairwise.map _
      (fun a b h => by simpa using of_decide_eq_true h)
      (stableSort_pairwise _ htrans htot _)
  · intro f hf
    rw [hfind] at hf
    obtain ⟨g, hg, hfeq⟩ := List.mem_map.mp hf
    subst hfeq
    have hgc : g ∈ groupByKey (fun e => recGetD e "source" "unknown") logs :=
      (stableSort_perm _ _).mem_iff.mp hg
    obtain ⟨hkey, hgval⟩ := (mem_groupByKey _ logs g).mp hgc
    have hclus : sourceCluster logs (errorFindingOf g.1 g.2).source = g.2 := by
      rw [sourceCluster]
      exact hgval.symm
    have hne : g.2 ≠ [] := by
      rw [hgval]
      exact filter_ne_nil_of_mem_orderedKeys _ logs g.1 hkey
    have htime : clusterTimestamps logs (errorFindingOf g.1 g.2).source =
        g.2.map (fun e => recGetD e "sys_created_on" "") := by
      rw [clusterTimestamps, hclus]
    cases hts : g.2.map (fun e => recGetD e "sys_created_on" "") with
    | nil =>
      exact absurd (List.map_eq_nil_iff.mp hts) hne
    | cons t ts =>
      refine ⟨?_, ?_, ?_, ?_, ?_, ?_, ?_, ?_⟩
      · rw [hclus]
        exact hne
      · rw [hclus]
        rfl
      · rw [hclus]
        rfl
      · show ((g.2.take 3).map (fun e => recGetD e "message" "")).length ≤ 3
        rw [List.length_map, List.length_take]
        omega
      · rw [htime, hts, errorFindingOf_first_seen g.1 g.2 t ts hts]
        exact pyMinStr_mem t ts
      · rw [htime, hts, errorFindingOf_first_seen g.1 g.2 t ts hts]
        exact pyMinStr_le t ts
      · rw [htime, hts, errorFindingOf_last_seen g.1 g.2 t ts hts]
        exact pyMaxStr_mem t ts
      · rw [htime, hts, errorFindingOf_last_seen g.1 g.2 t ts hts]
        exact pyMaxStr_ge t ts

/-- Witness for C8 at the spec example input: the findings are
`A` (frequency 2) then `B` (frequency 1), and the per-finding clause
instantiated at the concrete first finding gives its frequency as the
size of the `A` cluster. -/
theorem error_analysis_clusters_witness :
    (error_analysis_run
      [[("sys_id", "l1"), ("message", "m1"), ("source", "A"), ("level", "0"),
        ("sys_created_on", "1")],
       [("sys_id", "l2"), ("message", "m2"), ("source", "A"), ("level", "0"),
        ("sys_created_on", "2")],
       [("sys_id", "l3"), ("message", "m3"), ("source", "B"), ("level", "0"),
        ("sys_created_on", "3")]]).findings.map
        (fun f => (f.source, f.frequency)) = [("A", 2), ("B", 1)] ∧
    (⟨"A", 2, "1", "2", ["m1", "m2"], "syslog:l1"⟩ : ErrorFinding).frequency =
      (sourceCluster
        [[("sys_id", "l1"), ("message", "m1"), ("source", "A"), ("level", "0"),
          ("sys_created_on", "1")],
         [("sys_id", "l2"), ("message", "m2"), ("source", "A"), ("level", "0"),
          ("sys_created_on", "2")],
         [("sys_id", "l3"), ("message", "m3"), ("source", "B"), ("level", "0"),
          ("sys_created_on", "3")]] "A").length := by
  have h := error_analysis_clusters
    [[("sys_id", "l1"), ("message", "m1"), ("source", "A"), ("level", "0"),
      ("sys_created_on", "1")],
     [("sys_id", "l2"), ("message", "m2"), ("source", "A"), ("level", "0"),
      ("sys_created_on", "2")],
     [("sys_id", "l3"), ("message", "m3"), ("source", "B"), ("level", "0"),
      ("sys_created_on", "3")]]
  exact ⟨h.2.2.2.2,
    (h.2.2.1 ⟨"A", 2, "1", "2", ["m1", "m2"], "syslog:l1"⟩ (by decide)).2.1⟩
